import Mathlib

/-!
# Verification of the evaluation notebook's bootstrap / splitting logic

Shallow embedding of the code in
`ml_engineering/4.3_evaluation_pt.2/evaluation_pt.2.ipynb` and, for the
stratified splitting operations that the notebook delegates to an external
library, of the operations as the specification describes them.

Numeric values are modelled as rationals (`ℚ`); class labels as an arbitrary
type with decidable equality; datasets as lists.
-/

namespace MLEval

/-- Linear interpolation between the order statistics of `s` at fractional
index `h`: the value `s[⌊h⌋] + (h - ⌊h⌋) * (s[⌊h⌋+1] - s[⌊h⌋])`, with the
out-of-range successor index falling back to `s[⌊h⌋]`. -/
def interp (s : List ℚ) (h : ℚ) : ℚ :=
  let i := (⌊h⌋).toNat
  let v1 := s.getD i 0
  let v2 := s.getD (i + 1) v1
  v1 + (h - ⌊h⌋) * (v2 - v1)

/-- Embedding of `np.percentile(xs, p)` with the default linear interpolation
between order statistics: sort the data and interpolate at the fractional
index `h = p/100 * (n-1)`. -/
def percentile (xs : List ℚ) (p : ℚ) : ℚ :=
  let s := xs.insertionSort (· ≤ ·)
  if s.isEmpty then 0
  else interp s (p / 100 * ((s.length : ℚ) - 1))

/-- Embedding of the notebook's `confidence_intervals(distribution, alpha)`.
The module-level variable `f1s` that the body reads is passed explicitly as
the first argument; the `distribution` parameter is kept because the source
declares it, even though the body never uses it (it reads `f1s` instead). -/
def confidence_intervals (f1s : List ℚ) (distribution : List ℚ) (alpha : ℚ) :
    ℚ × ℚ :=
  let top_p := ((1 - alpha) / 2) * 100
  let lower_limit := max 0 (percentile f1s top_p)
  let bottom_p := (alpha + (1 - alpha) / 2) * 100
  let upper_limit := min 1 (percentile f1s bottom_p)
  (lower_limit, upper_limit)

/-- The Python tuple that `confidence_intervals` returns, rendered as a list
so that its arity is observable. -/
def confidence_intervals_ret (f1s : List ℚ) (distribution : List ℚ)
    (alpha : ℚ) : List ℚ :=
  [(confidence_intervals f1s distribution alpha).1,
   (confidence_intervals f1s distribution alpha).2]

/-- Fallible embedding of `np.percentile`: numpy raises on an empty data
array and on a percentile outside `[0, 100]`. -/
def percentileE (xs : List ℚ) (p : ℚ) : Except String ℚ :=
  if xs.isEmpty then Except.error "IndexError: empty array"
  else if p < 0 then Except.error "ValueError: percentile out of range"
  else if 100 < p then Except.error "ValueError: percentile out of range"
  else Except.ok (percentile xs p)

/-- Fallible embedding of `confidence_intervals`: each `np.percentile` call
may raise, and the body reads the module-level `f1s`, never `distribution`. -/
def confidence_intervalsE (f1s : List ℚ) (distribution : List ℚ) (alpha : ℚ) :
    Except String (ℚ × ℚ) := do
  let top_p := ((1 - alpha) / 2) * 100
  let pl ← percentileE f1s top_p
  let lower_limit := max 0 pl
  let bottom_p := (alpha + (1 - alpha) / 2) * 100
  let pu ← percentileE f1s bottom_p
  let upper_limit := min 1 pu
  return (lower_limit, upper_limit)

/-- Embedding of `tasty_ratio(df)`: count the records whose `tasty` column
equals 1 and divide by the number of records. `Series.count()` returns a
numpy integer scalar, so the division by a zero `len(df)` does not raise:
numpy emits a `RuntimeWarning` and the quotient is the float `nan`. The
embedding renders the rational quotient as `some` and the `nan` outcome of
the zero denominator as `none`. -/
def tasty_ratio (ys : List Int) : Option ℚ :=
  let n_tasty := ys.countP (fun v => decide (v = 1))
  if ys.length = 0 then none
  else some ((n_tasty : ℚ) / (ys.length : ℚ))

/-- Number of true positives: positions where both the true label and the
predicted label are positive. -/
def countTP (yTrue yPred : List Bool) : Nat :=
  (List.zip yTrue yPred).countP (fun ab => ab.1 && ab.2)

/-- Embedding of `precision_score(y_val, y_pred, zero_division=0)`:
true positives over predicted positives, and 0 when there are no predicted
positives (that is what `zero_division=0` selects). -/
def precision_score (yTrue yPred : List Bool) : ℚ :=
  let pp := (List.zip yTrue yPred).countP (fun ab => ab.2)
  if pp = 0 then 0 else (countTP yTrue yPred : ℚ) / (pp : ℚ)

/-- Embedding of `recall_score(y_val, y_pred)`: true positives over actual
positives; with the library default the zero-denominator case yields 0 (plus
a warning, which is not an error). -/
def recall_score (yTrue yPred : List Bool) : ℚ :=
  let ap := (List.zip yTrue yPred).countP (fun ab => ab.1)
  if ap = 0 then 0 else (countTP yTrue yPred : ℚ) / (ap : ℚ)

/-- Embedding of `f1_score(y_val, y_pred)`: harmonic mean of precision and
recall, and 0 when both are 0 (the library default returns 0 with a warning,
not an error). -/
def f1_score (yTrue yPred : List Bool) : ℚ :=
  let p := precision_score yTrue yPred
  let r := recall_score yTrue yPred
  if p + r = 0 then 0 else 2 * p * r / (p + r)

/-- Embedding of the notebook's `evaluate(clf, X_val, y_val)`: run the
classifier's predict on the features and return the `FPR` named tuple
`(f1, precision, recall)`. The classifier's `predict` method is the
function argument. -/
def evaluate (clf_predict : List (List ℚ) → List Bool) (X_val : List (List ℚ))
    (y_val : List Bool) : ℚ × ℚ × ℚ :=
  let y_pred := clf_predict X_val
  (f1_score y_val y_pred, precision_score y_val y_pred,
   recall_score y_val y_pred)

/-- The sequence of random seeds the notebook's bootstrap loop passes to
`resample`: `seed + i` for `i in range(n_resamples)`. -/
def bootstrap_seeds (base_seed n_resamples : Nat) : List Nat :=
  (List.range n_resamples).map (fun i => base_seed + i)

/-- Embedding of `resample(X_test, y_test, random_state=sd)`: the library
draws, deterministically from the seed, `|X|` indices with replacement; the
draw itself is the function argument `resampleFn` (seed and size to index
list), and the rows at those indices form the resampled arrays. -/
def resample_at (resampleFn : Nat → Nat → List Nat) (X : List (List ℚ))
    (y : List Bool) (sd : Nat) : List (List ℚ) × List Bool :=
  let idx := resampleFn sd X.length
  (idx.map (fun j => X.getD j []), idx.map (fun j => y.getD j false))

/-- Embedding of the notebook's bootstrap loop:
`for i in range(n): resample(..., random_state=seed+i); evaluate(...)`,
collecting one `FPR` triple per iteration. -/
def bootstrap_scores (resampleFn : Nat → Nat → List Nat)
    (clf_predict : List (List ℚ) → List Bool) (X : List (List ℚ))
    (y : List Bool) (n_resamples base_seed : Nat) : List (ℚ × ℚ × ℚ) :=
  (List.range n_resamples).map (fun i =>
    let s := resample_at resampleFn X y (base_seed + i)
    evaluate clf_predict s.1 s.2)

/-- Modelled from the spec: the notebook delegates stratified splitting to
the external library (`train_test_split(stratify=...)`, `StratifiedKFold`),
whose implementation is not part of the repository source. Following the
spec's algorithm, record indices are grouped by class label: one group per
distinct class, in order of first appearance, each group listing the indices
carrying that class. -/
def classGroups {α : Type} [DecidableEq α] (labels : List α) :
    List (List Nat) :=
  labels.dedup.map (fun c =>
    (List.range labels.length).filter (fun i => decide (labels[i]? = some c)))

/-- Modelled from the spec: `stratified_split(dataset, test_fraction, seed)`
is not implemented in the repository source (the notebook calls the external
`train_test_split(stratify=...)`). Following the spec's algorithm: group
record indices by class label; for each class group, select (via a seeded
shuffle, abstracted as the permutation-valued argument `shuffle`)
`round(test_fraction * group_size)` indices into the test partition and the
remainder into train; concatenate across classes. -/
def stratified_split {α : Type} [DecidableEq α]
    (shuffle : Nat → List Nat → List Nat) (labels : List α)
    (test_fraction : ℚ) (seed : Nat) : List Nat × List Nat :=
  let parts := (classGroups labels).map (fun g =>
    let sg := shuffle seed g
    let m := (round (test_fraction * (g.length : ℚ))).toNat
    (sg.drop m, sg.take m))
  ((parts.map Prod.fst).flatten, (parts.map Prod.snd).flatten)

/-- Fold sizes for splitting `n` items into `k` nearly-equal contiguous
groups: sizes differ by at most 1 and the remainder goes to the first
`n % k` groups, as the spec's edge-case policy requires. -/
def foldSizes (n k : Nat) : List Nat :=
  (List.range k).map (fun i => n / k + if i < n % k then 1 else 0)

/-- Cut a list into consecutive chunks of the given sizes. -/
def splitSizes : List Nat → List Nat → List (List Nat)
  | _, [] => []
  | l, s :: ss => l.take s :: splitSizes (l.drop s) ss

/-- Modelled from the spec: `stratified_kfold(dataset, k, seed)` is not
implemented in the repository source (the notebook calls the external
`StratifiedKFold`). Following the spec's algorithm: independently for each
class, partition that class's shuffled indices into `k` nearly-equal
contiguous groups; fold `i`'s validation set is the union across classes of
group `i`, and its training set is the union of all other groups. Each fold
is returned as a `(train_indices, val_indices)` pair. -/
def stratified_kfold {α : Type} [DecidableEq α]
    (shuffle : Nat → List Nat → List Nat) (labels : List α) (k seed : Nat) :
    List (List Nat × List Nat) :=
  let chunked := (classGroups labels).map (fun g =>
    splitSizes (shuffle seed g) (foldSizes g.length k))
  (List.range k).map (fun i =>
    ((chunked.map (fun cs => (cs.eraseIdx i).flatten)).flatten,
     (chunked.map (fun cs => cs.getD i [])).flatten))

/-! ## Lemmas about sorted lists and interpolation -/

lemma getD_mono_sorted {s : List ℚ} (hs : s.Sorted (· ≤ ·)) {a b : Nat}
    (hab : a ≤ b) (hb : b < s.length) (d1 d2 : ℚ) :
    s.getD a d1 ≤ s.getD b d2 := by
  have ha : a < s.length := lt_of_le_of_lt hab hb
  rw [List.getD_eq_getElem _ _ ha, List.getD_eq_getElem _ _ hb]
  have := hs.rel_get_of_le (a := ⟨a, ha⟩) (b := ⟨b, hb⟩) (Fin.mk_le_mk.2 hab)
  simpa using this

lemma interp_floor_lt {s : List ℚ} {h : ℚ} (h0 : 0 ≤ h)
    (h1 : h ≤ (s.length : ℚ) - 1) : (⌊h⌋).toNat < s.length := by
  have hfl : (⌊h⌋ : ℚ) ≤ (s.length : ℚ) - 1 := le_trans (Int.floor_le h) h1
  have hlen : (1 : ℚ) ≤ (s.length : ℚ) := by linarith
  have hlen' : 1 ≤ s.length := by exact_mod_cast hlen
  have h2 : (⌊h⌋ : ℚ) ≤ ((s.length - 1 : ℕ) : ℚ) := by
    push_cast [hlen']
    linarith
  have hle : ⌊h⌋ ≤ ((s.length - 1 : ℕ) : ℤ) := by exact_mod_cast h2
  omega

lemma interp_ge {s : List ℚ} {h : ℚ} (hs : s.Sorted (· ≤ ·)) (h0 : 0 ≤ h)
    (h1 : h ≤ (s.length : ℚ) - 1) :
    s.getD (⌊h⌋).toNat 0 ≤ interp s h := by
  set i := (⌊h⌋).toNat with hi
  have hilt : i < s.length := interp_floor_lt h0 h1
  have hfrac : 0 ≤ h - ⌊h⌋ := by
    have := Int.floor_le h
    linarith
  have hv : s.getD i 0 ≤ s.getD (i + 1) (s.getD i 0) := by
    rcases lt_or_ge (i + 1) s.length with hlt | hge
    · exact getD_mono_sorted hs (Nat.le_succ i) hlt 0 _
    · rw [List.getD_eq_default _ _ hge]
  simp only [interp]
  nlinarith

lemma interp_le {s : List ℚ} {h : ℚ} (hs : s.Sorted (· ≤ ·)) (h0 : 0 ≤ h)
    (h1 : h ≤ (s.length : ℚ) - 1) :
    interp s h ≤ s.getD ((⌊h⌋).toNat + 1) (s.getD (⌊h⌋).toNat 0) := by
  set i := (⌊h⌋).toNat with hi
  have hilt : i < s.length := interp_floor_lt h0 h1
  have hfrac : 0 ≤ h - ⌊h⌋ := by
    have := Int.floor_le h
    linarith
  have hfrac1 : h - ⌊h⌋ < 1 := by
    have := Int.lt_floor_add_one h
    linarith
  have hv : s.getD i 0 ≤ s.getD (i + 1) (s.getD i 0) := by
    rcases lt_or_ge (i + 1) s.length with hlt | hge
    · exact getD_mono_sorted hs (Nat.le_succ i) hlt 0 _
    · rw [List.getD_eq_default _ _ hge]
  simp only [interp]
  nlinarith

lemma interp_mono {s : List ℚ} {h1 h2 : ℚ} (hs : s.Sorted (· ≤ ·))
    (h10 : 0 ≤ h1) (h12 : h1 ≤ h2) (h2n : h2 ≤ (s.length : ℚ) - 1) :
    interp s h1 ≤ interp s h2 := by
  have h20 : 0 ≤ h2 := le_trans h10 h12
  have h1n : h1 ≤ (s.length : ℚ) - 1 := le_trans h12 h2n
  have hfloor : ⌊h1⌋ ≤ ⌊h2⌋ := Int.floor_mono h12
  rcases eq_or_lt_of_le hfloor with heq | hlt
  · have hilt : (⌊h1⌋).toNat < s.length := interp_floor_lt h10 h1n
    have hv : s.getD (⌊h1⌋).toNat 0 ≤
        s.getD ((⌊h1⌋).toNat + 1) (s.getD (⌊h1⌋).toNat 0) := by
      rcases lt_or_ge ((⌊h1⌋).toNat + 1) s.length with hlt' | hge
      · exact getD_mono_sorted hs (Nat.le_succ _) hlt' 0 _
      · rw [List.getD_eq_default _ _ hge]
    simp only [interp, ← heq]
    nlinarith
  · have hi2 : (⌊h2⌋).toNat < s.length := interp_floor_lt h20 h2n
    have hnn1 : 0 ≤ ⌊h1⌋ := Int.floor_nonneg.2 h10
    have hnn2 : 0 ≤ ⌊h2⌋ := Int.floor_nonneg.2 h20
    have hsucc : (⌊h1⌋).toNat + 1 ≤ (⌊h2⌋).toNat := by omega
    have step1 : interp s h1 ≤
        s.getD ((⌊h1⌋).toNat + 1) (s.getD (⌊h1⌋).toNat 0) :=
      interp_le hs h10 h1n
    have step2 : s.getD ((⌊h1⌋).toNat + 1) (s.getD (⌊h1⌋).toNat 0) ≤
        s.getD (⌊h2⌋).toNat 0 :=
      getD_mono_sorted hs hsucc hi2 _ 0
    have step3 : s.getD (⌊h2⌋).toNat 0 ≤ interp s h2 := interp_ge hs h20 h2n
    linarith

lemma percentile_mono (xs : List ℚ) (hne : xs ≠ []) {p1 p2 : ℚ}
    (hp0 : 0 ≤ p1) (hp12 : p1 ≤ p2) (hp100 : p2 ≤ 100) :
    percentile xs p1 ≤ percentile xs p2 := by
  have hs : (xs.insertionSort (· ≤ ·)).Sorted (· ≤ ·) :=
    List.sorted_insertionSort _ xs
  have hlen : (xs.insertionSort (· ≤ ·)).length = xs.length :=
    List.length_insertionSort _ xs
  have hpos : 0 < xs.length := List.length_pos.2 hne
  have hsne : xs.insertionSort (· ≤ ·) ≠ [] := by
    intro hcon
    rw [hcon] at hlen
    simp at hlen
    omega
  have hemp : (xs.insertionSort (· ≤ ·)).isEmpty = false := by
    simpa using hsne
  have hN1 : (1 : ℚ) ≤ ((xs.insertionSort (· ≤ ·)).length : ℚ) := by
    rw [hlen]
    exact_mod_cast hpos
  simp only [percentile, hemp, Bool.false_eq_true, if_false]
  apply interp_mono hs
  · apply mul_nonneg (div_nonneg hp0 (by norm_num))
    linarith
  · apply mul_le_mul_of_nonneg_right _ (by linarith)
    apply div_le_div_of_nonneg_right hp12 (by norm_num)
  · have hd : p2 / 100 ≤ 1 := by linarith
    nlinarith

/-! ## Claim theorems about the confidence-interval helper -/

/-- C1: the claim states that `confidence_intervals` computes the percentile
bounds of the scores sequence passed as its `distribution` argument; the code
instead reads the module-level `f1s`. With global `f1s = [0, 1]`, argument
`distribution = [1/2]` and `confidence_level = 1/2`, percentile-of-argument
behaviour would give the interval `(1/2, 1/2)` (every percentile of the
one-element list `[1/2]` is `1/2`), but the code returns `(1/4, 3/4)`, the
percentiles of the global `f1s`. -/
theorem confidence_intervals_uses_global_not_argument :
    confidence_intervals [0, 1] [1/2] (1/2) = (1/4, 3/4) ∧
    confidence_intervals [1/2] [1/2] (1/2) = (1/2, 1/2) ∧
    confidence_intervals [0, 1] [1/2] (1/2) ≠
      confidence_intervals [1/2] [1/2] (1/2) := by
  refine ⟨?_, ?_, ?_⟩ <;>
    norm_num [confidence_intervals, percentile, interp,
      List.insertionSort, List.orderedInsert]

/-- C9: `confidence_intervals` does not depend on its `distribution` argument
at all: for a fixed module-level `f1s` and fixed `alpha`, any two argument
sequences give the same result. -/
theorem confidence_intervals_ignores_distribution (f1s d1 d2 : List ℚ)
    (alpha : ℚ) :
    confidence_intervals f1s d1 alpha = confidence_intervals f1s d2 alpha :=
  rfl

/-- C6 counterexample: the claim states that the function returns a
three-element tuple `(mean_estimate, lower, upper)`; the returned tuple has
exactly two components, `(lower, upper)`. -/
theorem confidence_intervals_ret_not_triple :
    (confidence_intervals_ret [1/2] [1/2] (1/2)).length = 2 ∧
    (confidence_intervals_ret [1/2] [1/2] (1/2)).length ≠ 3 := by
  constructor <;> simp [confidence_intervals_ret]

/-- C6 amended: `confidence_intervals` returns the two-element tuple
`(lower, upper)`; the mean point estimate is computed separately by the
caller, not returned by the function. -/
theorem confidence_intervals_ret_is_pair (f1s d : List ℚ) (a : ℚ) :
    confidence_intervals_ret f1s d a =
      [(confidence_intervals f1s d a).1, (confidence_intervals f1s d a).2] ∧
    (confidence_intervals_ret f1s d a).length = 2 :=
  ⟨rfl, rfl⟩

/-- C5: for any fixed data the interval is non-decreasing in the confidence
level: raising `alpha` moves the lower bound down (or keeps it) and the upper
bound up (or keeps it), so the interval at a higher level contains the
interval at a lower level. -/
theorem confidence_intervals_monotone_in_level (f1s distribution : List ℚ)
    (a1 a2 : ℚ) (hne : f1s ≠ []) (h0 : 0 ≤ a1) (h12 : a1 ≤ a2)
    (h1 : a2 ≤ 1) :
    (confidence_intervals f1s distribution a2).1 ≤
      (confidence_intervals f1s distribution a1).1 ∧
    (confidence_intervals f1s distribution a1).2 ≤
      (confidence_intervals f1s distribution a2).2 := by
  constructor
  · simp only [confidence_intervals]
    apply max_le_max (le_refl 0)
    apply percentile_mono f1s hne
    · nlinarith
    · nlinarith
    · nlinarith
  · simp only [confidence_intervals]
    apply min_le_min (le_refl 1)
    apply percentile_mono f1s hne
    · nlinarith
    · nlinarith
    · nlinarith

/-- C5 witness: instantiated at the spec's example scores with levels `1/2`
and `99/100`. -/
theorem confidence_intervals_monotone_in_level_witness :
    ([(2 : ℚ)/5, 9/20, 1/2, 11/20, 3/5] ≠ ([] : List ℚ)) ∧
    (0 : ℚ) ≤ 1/2 ∧ (1 : ℚ)/2 ≤ 99/100 ∧ (99 : ℚ)/100 ≤ 1 ∧
    ((confidence_intervals [(2 : ℚ)/5, 9/20, 1/2, 11/20, 3/5] [] (99/100)).1 ≤
      (confidence_intervals [(2 : ℚ)/5, 9/20, 1/2, 11/20, 3/5] [] (1/2)).1 ∧
    (confidence_intervals [(2 : ℚ)/5, 9/20, 1/2, 11/20, 3/5] [] (1/2)).2 ≤
      (confidence_intervals [(2 : ℚ)/5, 9/20, 1/2, 11/20, 3/5] [] (99/100)).2) :=
  ⟨by simp, by norm_num, by norm_num, by norm_num,
    confidence_intervals_monotone_in_level _ [] (1/2) (99/100) (by simp)
      (by norm_num) (by norm_num) (by norm_num)⟩

/-! ## Claim theorems about the bootstrap loop, metrics and helpers -/

/-- C2: running the bootstrap loop twice with the same seed and inputs gives
the same output sequence; the loop's result is the map of one deterministic
step over the seed sequence `base_seed + i` for `i < n_resamples`, and those
seeds are pairwise distinct. -/
theorem bootstrap_scores_deterministic (resampleFn : Nat → Nat → List Nat)
    (clf_predict : List (List ℚ) → List Bool) (X : List (List ℚ))
    (y : List Bool) (n s : Nat) :
    bootstrap_scores resampleFn clf_predict X y n s =
      bootstrap_scores resampleFn clf_predict X y n s ∧
    bootstrap_scores resampleFn clf_predict X y n s =
      (bootstrap_seeds s n).map (fun sd =>
        let smp := resample_at resampleFn X y sd
        evaluate clf_predict smp.1 smp.2) ∧
    (bootstrap_seeds s n).Nodup := by
  refine ⟨rfl, ?_, ?_⟩
  · simp only [bootstrap_scores, bootstrap_seeds, List.map_map]
    rfl
  · exact (List.nodup_range n).map (fun a b hab => by omega)

/-- C8: when the predicted labels contain no positives, the metric triple
computed by `evaluate` is `(0, 0, 0)` — defined values, not errors: precision
takes its `zero_division=0` branch, recall and the f1-score take their
zero-denominator branches. -/
theorem evaluate_zero_predicted_positives
    (clf_predict : List (List ℚ) → List Bool) (X : List (List ℚ))
    (y : List Bool) (hlen : (clf_predict X).length = y.length)
    (hzero : (clf_predict X).countP (fun b => b) = 0) :
    evaluate clf_predict X y = (0, 0, 0) := by
  have hfalse : ∀ b ∈ clf_predict X, b = false := by
    intro b hb
    have := List.countP_eq_zero.1 hzero b hb
    simpa using this
  have hTP : countTP y (clf_predict X) = 0 := by
    rw [countTP]
    apply List.countP_eq_zero.2
    intro ab hab
    have h2 := (List.of_mem_zip hab).2
    simp [hfalse ab.2 h2]
  have hpp : (List.zip y (clf_predict X)).countP (fun ab => ab.2) = 0 := by
    apply List.countP_eq_zero.2
    intro ab hab
    have h2 := (List.of_mem_zip hab).2
    simp [hfalse ab.2 h2]
  simp [evaluate, precision_score, recall_score, f1_score, hTP, hpp]

/-- C8 witness: a classifier predicting all-negative on a two-row input. -/
theorem evaluate_zero_predicted_positives_witness :
    evaluate (fun il => il.map (fun r => false)) [[1], [2]] [true, false] =
      (0, 0, 0) :=
  evaluate_zero_predicted_positives _ _ _ (by simp) (by simp)

/-- C10: `tasty_ratio` divides the positive count by the dataset length with
no guard; on every non-empty dataset the quotient is a number in `[0, 1]`,
and the division by zero occurs exactly on the empty dataset, where the zero
denominator makes the numpy division produce `nan` (rendered `none`) instead
of a number in range. -/
theorem tasty_ratio_bounds :
    (∀ ys : List Int, ys ≠ [] →
      ∃ q, tasty_ratio ys = some q ∧ 0 ≤ q ∧ q ≤ 1) ∧
    tasty_ratio [] = none := by
  refine ⟨fun ys hne => ?_, rfl⟩
  have hlen : ys.length ≠ 0 := by
    simpa using hne
  refine ⟨(ys.countP (fun v => decide (v = 1)) : ℚ) / (ys.length : ℚ),
    ?_, ?_, ?_⟩
  · simp [tasty_ratio, hlen]
  · positivity
  · rw [div_le_one (by positivity)]
    exact_mod_cast List.countP_le_length _

/-- C10 witness: a concrete two-record dataset with one positive. -/
theorem tasty_ratio_bounds_witness :
    ∃ q, tasty_ratio [1, 0] = some q ∧ 0 ≤ q ∧ q ≤ 1 :=
  tasty_ratio_bounds.1 [1, 0] (by simp)

/-- C7 counterexample: the claim states that an empty score sequence passed
to interval estimation is detected eagerly and reported as an error with no
result; the code performs no such check — called with an empty `distribution`
argument (and the non-empty module-level `f1s = [3/5, 4/5]`) it succeeds and
returns a full interval. -/
theorem confidence_intervalsE_no_empty_check :
    confidence_intervalsE [3/5, 4/5] [] (95/100) =
      Except.ok (121/200, 159/200) := by
  norm_num [confidence_intervalsE, percentileE, percentile, interp,
    List.insertionSort, List.orderedInsert, Bind.bind, Except.bind,
    Pure.pure, Except.pure]

/-- C7 amended: interval estimation performs no eager validation of its
argument; for a confidence level in `(0, 1)` it reports an error exactly when
the module-level `f1s` is empty (the percentile computation fails there), and
in that case no partial result is produced — otherwise it fully succeeds. -/
theorem confidence_intervalsE_error_iff_global_empty
    (f1s distribution : List ℚ) (alpha : ℚ) (h0 : 0 < alpha)
    (h1 : alpha < 1) :
    (∃ e, confidence_intervalsE f1s distribution alpha = Except.error e) ↔
      f1s = [] := by
  constructor
  · intro ⟨e, he⟩
    by_contra hne
    have hemp : f1s.isEmpty = false := by simpa using hne
    have ht0 : ¬((1 - alpha) / 2 * 100 < 0) := by intro hc; nlinarith
    have ht1 : ¬(100 < (1 - alpha) / 2 * 100) := by intro hc; nlinarith
    have hb0 : ¬((alpha + (1 - alpha) / 2) * 100 < 0) := by
      intro hc; nlinarith
    have hb1 : ¬(100 < (alpha + (1 - alpha) / 2) * 100) := by
      intro hc; nlinarith
    simp [confidence_intervalsE, percentileE, hemp, ht0, ht1, hb0, hb1,
      Bind.bind, Except.bind, Pure.pure, Except.pure] at he
  · intro hf
    subst hf
    exact ⟨"IndexError: empty array",
      by simp [confidence_intervalsE, percentileE, Bind.bind, Except.bind]⟩

/-- C7 amended witness: with empty global `f1s` the call errors; the
hypotheses `0 < alpha < 1` are discharged at `alpha = 95/100`. -/
theorem confidence_intervalsE_error_iff_global_empty_witness :
    (∃ e, confidence_intervalsE [] [3/5] (95/100) = Except.error e) ↔
      ([] : List ℚ) = [] :=
  confidence_intervalsE_error_iff_global_empty [] [3/5] (95/100)
    (by norm_num) (by norm_num)


/-! ## Counting infrastructure for the modelled splitters -/

lemma sum_map_indicator {α : Type} [DecidableEq α] (l : List α) (a : α) :
    (l.map (fun c => if c = a then 1 else 0)).sum = l.count a := by
  induction l with
  | nil => simp
  | cons b l ih =>
    rw [List.map_cons, List.sum_cons, ih, List.count_cons]
    by_cases h : b = a
    · subst h
      simp
      omega
    · simp [h]

lemma count_range_eq (n a : Nat) :
    (List.range n).count a = if a < n then 1 else 0 := by
  by_cases h : a < n
  · rw [if_pos h]
    exact List.count_eq_one_of_mem (List.nodup_range n) (List.mem_range.2 h)
  · rw [if_neg h]
    exact List.count_eq_zero.2 (fun hm => h (List.mem_range.1 hm))

lemma count_filter_class {α : Type} [DecidableEq α] (labels : List α)
    (c : α) (j : Nat) :
    ((List.range labels.length).filter
        (fun i => decide (labels[i]? = some c))).count j =
      if labels[j]? = some c then 1 else 0 := by
  by_cases h : labels[j]? = some c
  · have hj : j < labels.length := by
      rcases List.getElem?_eq_some_iff.1 h with ⟨hlt, _⟩
      exact hlt
    rw [if_pos h]
    apply List.count_eq_one_of_mem ((List.nodup_range _).filter _)
    rw [List.mem_filter]
    exact ⟨List.mem_range.2 hj, by simpa using h⟩
  · rw [if_neg h]
    apply List.count_eq_zero.2
    intro hm
    rw [List.mem_filter] at hm
    exact h (by simpa using hm.2)

lemma classGroups_count {α : Type} [DecidableEq α] (labels : List α)
    (j : Nat) :
    ((classGroups labels).map (List.count j)).sum =
      if j < labels.length then 1 else 0 := by
  simp only [classGroups, List.map_map]
  by_cases hj : j < labels.length
  · have hsome : labels[j]? = some labels[j] := List.getElem?_eq_getElem hj
    rw [if_pos hj]
    have : ∀ c, ((List.range labels.length).filter
        (fun i => decide (labels[i]? = some c))).count j =
        if c = labels[j] then 1 else 0 := by
      intro c
      rw [count_filter_class, hsome]
      simp [eq_comm]
    calc (labels.dedup.map (List.count j ∘ fun c =>
            (List.range labels.length).filter
              (fun i => decide (labels[i]? = some c)))).sum
        = (labels.dedup.map (fun c => if c = labels[j] then 1 else 0)).sum := by
          apply congrArg
          apply List.map_congr_left
          intro c _
          exact this c
      _ = labels.dedup.count labels[j] := sum_map_indicator _ _
      _ = 1 := List.count_eq_one_of_mem labels.nodup_dedup
          (List.mem_dedup.2 (labels.getElem_mem hj))
  · have hnone : labels[j]? = none := by
      rw [List.getElem?_eq_none_iff]
      omega
    rw [if_neg hj]
    have : ∀ c, ((List.range labels.length).filter
        (fun i => decide (labels[i]? = some c))).count j = 0 := by
      intro c
      rw [count_filter_class, hnone]
      simp
    calc (labels.dedup.map (List.count j ∘ fun c =>
            (List.range labels.length).filter
              (fun i => decide (labels[i]? = some c)))).sum
        = (labels.dedup.map (fun c => (0 : Nat))).sum := by
          apply congrArg
          apply List.map_congr_left
          intro c _
          exact this c
      _ = 0 := by simp

lemma classGroups_flatten_perm {α : Type} [DecidableEq α] (labels : List α) :
    (classGroups labels).flatten.Perm (List.range labels.length) := by
  apply List.perm_iff_count.2
  intro j
  rw [List.count_flatten, classGroups_count, count_range_eq]

lemma classGroups_sum_length {α : Type} [DecidableEq α] (labels : List α) :
    ((classGroups labels).map List.length).sum = labels.length := by
  have := (classGroups_flatten_perm labels).length_eq
  rw [List.length_flatten] at this
  simpa using this

lemma classGroups_ne_nil {α : Type} [DecidableEq α] (labels : List α)
    (h : labels ≠ []) : classGroups labels ≠ [] := by
  simp only [classGroups]
  simp only [ne_eq, List.map_eq_nil_iff, List.dedup_eq_nil]
  exact h

lemma sum_map_add_nat {α : Type} (l : List α) (f g : α → Nat) :
    (l.map (fun x => f x + g x)).sum = (l.map f).sum + (l.map g).sum := by
  induction l with
  | nil => simp
  | cons b l ih =>
    simp [ih]
    omega

lemma min_indicator_sum (k r : Nat) :
    ((List.range k).map (fun i => if i < r then 1 else 0)).sum = min r k := by
  induction k with
  | zero => simp
  | succ k ih =>
    rw [List.range_succ, List.map_append, List.sum_append, ih]
    by_cases h : k < r <;> simp [h] <;> omega

lemma foldSizes_sum (n k : Nat) (hk : 0 < k) : (foldSizes n k).sum = n := by
  have hmod : n % k < k := Nat.mod_lt n hk
  rw [foldSizes, sum_map_add_nat, min_indicator_sum]
  simp only [List.map_const', List.sum_replicate, smul_eq_mul,
    List.length_range]
  have := Nat.div_add_mod n k
  omega

lemma foldSizes_length (n k : Nat) : (foldSizes n k).length = k := by
  simp [foldSizes]

lemma splitSizes_length (l : List Nat) (ss : List Nat) :
    (splitSizes l ss).length = ss.length := by
  induction ss generalizing l with
  | nil => simp [splitSizes]
  | cons s ss ih => simp [splitSizes, ih]

lemma splitSizes_flatten (l : List Nat) (ss : List Nat)
    (h : ss.sum = l.length) : (splitSizes l ss).flatten = l := by
  have gen : ∀ (l : List Nat) (ss : List Nat),
      (splitSizes l ss).flatten = l.take ss.sum := by
    intro l ss
    induction ss generalizing l with
    | nil => simp [splitSizes]
    | cons s ss ih =>
      rw [splitSizes, List.flatten_cons, ih, List.sum_cons, List.take_add]
  rw [gen, h, List.take_length]

lemma count_flatten_eraseIdx (cs : List (List Nat)) (i : Nat)
    (hi : i < cs.length) (j : Nat) :
    ((cs.eraseIdx i).flatten).count j + (cs.getD i []).count j =
      (cs.flatten).count j := by
  rw [List.eraseIdx_eq_take_drop_succ, List.getD_eq_getElem _ _ hi]
  have hdrop : cs.drop i = cs[i] :: cs.drop (i + 1) :=
    List.drop_eq_getElem_cons hi
  have hsplit : cs.flatten =
      (cs.take i).flatten ++ (cs[i] ++ (cs.drop (i + 1)).flatten) := by
    conv_lhs => rw [← List.take_append_drop i cs, hdrop]
    rw [List.flatten_append, List.flatten_cons]
  rw [hsplit, List.flatten_append, List.count_append, List.count_append,
    List.count_append]
  omega

lemma sum_range_getD (L : List (List Nat)) (j : Nat) :
    ((List.range L.length).map (fun i => (L.getD i []).count j)).sum =
      (L.map (List.count j)).sum := by
  induction L with
  | nil => simp
  | cons a L ih =>
    rw [List.length_cons, List.range_succ_eq_map]
    simp only [List.map_cons, List.map_map, List.sum_cons, List.getD_cons_zero]
    congr 1

lemma sum_round_close (f : ℚ) (ls : List Nat) :
    |(ls.map (fun m : ℕ => ((round (f * (m : ℚ)) : ℤ) : ℚ))).sum -
        f * ((ls.map (fun m : ℕ => (m : ℚ))).sum)| ≤ (ls.length : ℚ) / 2 := by
  induction ls with
  | nil => simp
  | cons m ls ih =>
    simp only [List.map_cons, List.sum_cons, List.length_cons]
    have h1 : |((round (f * (m : ℚ)) : ℤ) : ℚ) - f * (m : ℚ)| ≤ 1 / 2 := by
      rw [abs_sub_comm]
      exact abs_sub_round _
    calc |((round (f * (m : ℚ)) : ℤ) : ℚ) +
            (ls.map (fun m : ℕ => ((round (f * (m : ℚ)) : ℤ) : ℚ))).sum -
            f * ((m : ℚ) + (ls.map (fun m : ℕ => (m : ℚ))).sum)|
        ≤ |((round (f * (m : ℚ)) : ℤ) : ℚ) - f * (m : ℚ)| +
          |(ls.map (fun m : ℕ => ((round (f * (m : ℚ)) : ℤ) : ℚ))).sum -
            f * ((ls.map (fun m : ℕ => (m : ℚ))).sum)| := by
          rw [mul_add]
          apply le_trans (le_of_eq (congrArg abs (by ring))) (abs_add _ _)
      _ ≤ 1 / 2 + (ls.length : ℚ) / 2 := add_le_add h1 ih
      _ = ((ls.length : ℚ) + 1) / 2 := by ring
      _ = (((ls.length + 1 : ℕ)) : ℚ) / 2 := by push_cast; ring

lemma round_mono_q {x y : ℚ} (h : x ≤ y) : round x ≤ round y := by
  rw [round_eq, round_eq]
  exact Int.floor_mono (by linarith)

lemma round_nonneg_q {x : ℚ} (h : 0 ≤ x) : 0 ≤ round x := by
  have := round_mono_q h
  simpa using this

lemma sum_toNat_cast (l : List ℤ) (h : ∀ x ∈ l, 0 ≤ x) :
    (((l.map Int.toNat).sum : ℕ) : ℤ) = l.sum := by
  induction l with
  | nil => simp
  | cons a l ih =>
    simp only [List.map_cons, List.sum_cons, Nat.cast_add]
    rw [ih (fun x hx => h x (List.mem_cons_of_mem a hx))]
    have := h a (List.mem_cons_self a l)
    omega

lemma stratified_split_count {α : Type} [DecidableEq α]
    (shuffle : Nat → List Nat → List Nat) (labels : List α)
    (f : ℚ) (seed : Nat)
    (hperm : ∀ sd l, (shuffle sd l).Perm l) (j : Nat) :
    (stratified_split shuffle labels f seed).1.count j +
      (stratified_split shuffle labels f seed).2.count j =
      if j < labels.length then 1 else 0 := by
  simp only [stratified_split, List.map_map, List.count_flatten]
  rw [← classGroups_count labels j, ← sum_map_add_nat]
  apply congrArg
  apply List.map_congr_left
  intro g _
  simp only [Function.comp]
  have happ : ((shuffle seed g).take
        ((round (f * (g.length : ℚ))).toNat)).count j +
      ((shuffle seed g).drop
        ((round (f * (g.length : ℚ))).toNat)).count j =
      (shuffle seed g).count j := by
    rw [← List.count_append, List.take_append_drop]
  rw [Nat.add_comm] at happ
  rw [happ]
  exact (hperm seed g).count_eq j

lemma stratified_split_test_length {α : Type} [DecidableEq α]
    (shuffle : Nat → List Nat → List Nat) (labels : List α)
    (f : ℚ) (seed : Nat)
    (hperm : ∀ sd l, (shuffle sd l).Perm l) (hf0 : 0 ≤ f) (hf1 : f ≤ 1) :
    (stratified_split shuffle labels f seed).2.length =
      ((classGroups labels).map
        (fun g => (round (f * (g.length : ℚ))).toNat)).sum := by
  simp only [stratified_split, List.map_map, List.length_flatten]
  apply congrArg
  apply List.map_congr_left
  intro g _
  simp only [Function.comp, List.length_take]
  have hlen : (shuffle seed g).length = g.length := (hperm seed g).length_eq
  have hub : round (f * (g.length : ℚ)) ≤ (g.length : ℤ) := by
    have h1 : f * (g.length : ℚ) ≤ ((g.length : ℤ) : ℚ) := by
      push_cast
      nlinarith [Nat.cast_nonneg (α := ℚ) g.length]
    have := round_mono_q h1
    rwa [round_intCast] at this
  rw [hlen]
  omega

/-- C3: for every dataset with at least one example of every class (every
class present in `labels` trivially has a member; non-emptiness of the
dataset is required) and every test fraction strictly between 0 and 1, the
spec-modelled `stratified_split` returns train and test index lists that are
disjoint, whose union is exactly the full index set `{0, ..., |D|-1}`, and
whose test size differs from `round(f * |D|)` by at most 1 per class group
(i.e. by at most the number of class groups). `shuffle` abstracts the seeded
random selection and is assumed to permute its input. -/
theorem stratified_split_partition {α : Type} [DecidableEq α]
    (shuffle : Nat → List Nat → List Nat) (labels : List α)
    (f : ℚ) (seed : Nat)
    (hperm : ∀ sd l, (shuffle sd l).Perm l)
    (hne : labels ≠ []) (hf0 : 0 < f) (hf1 : f < 1) :
    (stratified_split shuffle labels f seed).1.Disjoint
        (stratified_split shuffle labels f seed).2 ∧
    (∀ j, (j ∈ (stratified_split shuffle labels f seed).1 ∨
        j ∈ (stratified_split shuffle labels f seed).2) ↔
        j < labels.length) ∧
    |((stratified_split shuffle labels f seed).2.length : ℤ) -
        round (f * (labels.length : ℚ))| ≤
      ((classGroups labels).length : ℤ) := by
  have key := stratified_split_count shuffle labels f seed hperm
  refine ⟨?_, ?_, ?_⟩
  · intro a ha hb
    have h1 := List.count_pos_iff.2 ha
    have h2 := List.count_pos_iff.2 hb
    have h3 := key a
    by_cases hc : a < labels.length
    · rw [if_pos hc] at h3
      omega
    · rw [if_neg hc] at h3
      omega
  · intro j
    constructor
    · intro hmem
      by_contra hc
      have h3 := key j
      rw [if_neg hc] at h3
      rcases hmem with hm | hm
      · have := List.count_pos_iff.2 hm
        omega
      · have := List.count_pos_iff.2 hm
        omega
    · intro hj
      have h3 := key j
      rw [if_pos hj] at h3
      by_cases h1 : 0 < (stratified_split shuffle labels f seed).1.count j
      · exact Or.inl (List.count_pos_iff.1 h1)
      · exact Or.inr (List.count_pos_iff.1 (by omega))
  · have hC1 : 1 ≤ (classGroups labels).length :=
      List.length_pos.2 (classGroups_ne_nil labels hne)
    have hlen := stratified_split_test_length shuffle labels f seed hperm
      (le_of_lt hf0) (le_of_lt hf1)
    have hnn : ∀ x ∈ (classGroups labels).map
        (fun g => round (f * (g.length : ℚ))), 0 ≤ x := by
      intro x hx
      rcases List.mem_map.1 hx with ⟨g, _, rfl⟩
      exact round_nonneg_q (by positivity)
    have hcastlen : (((stratified_split shuffle labels f seed).2.length :
        ℕ) : ℤ) =
        ((classGroups labels).map (fun g => round (f * (g.length : ℚ)))).sum := by
      rw [hlen]
      have hmm : (classGroups labels).map
          (fun g => (round (f * (g.length : ℚ))).toNat) =
          ((classGroups labels).map
            (fun g => round (f * (g.length : ℚ)))).map Int.toNat := by
        rw [List.map_map]
        rfl
      rw [hmm, sum_toNat_cast _ hnn]
    rw [hcastlen]
    have hq1 := sum_round_close f ((classGroups labels).map List.length)
    rw [List.map_map, List.map_map] at hq1
    have hq2 : (((classGroups labels).map List.length).map
        (fun m => ((m : ℕ) : ℚ))).sum = (labels.length : ℚ) := by
      rw [← Nat.cast_list_sum, classGroups_sum_length]
    rw [List.map_map] at hq2
    have hcastS : ((((classGroups labels).map
        (fun g => round (f * (g.length : ℚ)))).sum : ℤ) : ℚ) =
        ((classGroups labels).map
          (fun g => ((round (f * (g.length : ℚ)) : ℤ) : ℚ))).sum := by
      rw [Int.cast_list_sum, List.map_map]
      rfl
    have habs : |((((classGroups labels).map
        (fun g => round (f * (g.length : ℚ)))).sum : ℤ) : ℚ) -
          ((round (f * (labels.length : ℚ)) : ℤ) : ℚ)| ≤
        ((classGroups labels).length : ℚ) := by
      have htri := abs_sub_le
        ((((classGroups labels).map
          (fun g => round (f * (g.length : ℚ)))).sum : ℤ) : ℚ)
        (f * (labels.length : ℚ))
        ((round (f * (labels.length : ℚ)) : ℤ) : ℚ)
      have hpart1 : |((((classGroups labels).map
          (fun g => round (f * (g.length : ℚ)))).sum : ℤ) : ℚ) -
            f * (labels.length : ℚ)| ≤
          (((classGroups labels).map List.length).length : ℚ) / 2 := by
        rw [hcastS]
        rw [hq2] at hq1
        exact hq1
      have hpart2 : |f * (labels.length : ℚ) -
          ((round (f * (labels.length : ℚ)) : ℤ) : ℚ)| ≤ 1 / 2 :=
        abs_sub_round _
      rw [List.length_map] at hpart1
      have hC1q : (1 : ℚ) ≤ ((classGroups labels).length : ℚ) := by
        exact_mod_cast hC1
      linarith
    exact_mod_cast habs

lemma list_sum_comm {β γ : Type} (xs : List β) (ys : List γ)
    (f : β → γ → ℕ) :
    (xs.map (fun x => (ys.map (fun y => f x y)).sum)).sum =
      (ys.map (fun y => (xs.map (fun x => f x y)).sum)).sum := by
  induction xs with
  | nil => simp
  | cons x xs ih =>
    simp only [List.map_cons, List.sum_cons, ih, ← sum_map_add_nat]

lemma countP_pos_of_sum_one (l : List Nat) (h : l.sum = 1) :
    l.countP (fun c => decide (0 < c)) = 1 := by
  induction l with
  | nil => simp at h
  | cons a l ih =>
    rw [List.sum_cons] at h
    by_cases ha : a = 0
    · subst ha
      rw [List.countP_cons]
      simp [ih (by omega)]
    · have ha1 : a = 1 := by omega
      have hl0 : l.sum = 0 := by omega
      have hall : ∀ x ∈ l, x = 0 := List.sum_eq_zero_iff.1 hl0
      rw [List.countP_cons]
      have : l.countP (fun c => decide (0 < c)) = 0 := by
        apply List.countP_eq_zero.2
        intro x hx
        simp [hall x hx]
      simp [this, ha1]

lemma countP_zero_eq_length_sub (l : List Nat) :
    l.countP (fun c => decide (c = 0)) =
      l.length - l.countP (fun c => decide (0 < c)) := by
  induction l with
  | nil => simp
  | cons a l ih =>
    rw [List.countP_cons, List.countP_cons, List.length_cons, ih]
    have hle := List.countP_le_length (fun c => decide (0 < c)) (l := l)
    by_cases ha : a = 0
    · simp [ha]
      try omega
    · have hpos : 0 < a := Nat.pos_of_ne_zero ha
      simp [ha, hpos]
      try omega

/-- C4: for `k ≥ 2` and every class having at least `k` members, the
spec-modelled `stratified_kfold` produces `k` folds such that every dataset
index appears in exactly one fold's validation list, across all folds it
appears in validation exactly once and in training exactly `k - 1` times,
and each fold's training list contains exactly the indices of the full index
set that are not in that fold's validation list. -/
theorem stratified_kfold_partition {α : Type} [DecidableEq α]
    (shuffle : Nat → List Nat → List Nat) (labels : List α) (k seed : Nat)
    (hperm : ∀ sd l, (shuffle sd l).Perm l) (hk : 2 ≤ k)
    (hmin : ∀ g ∈ classGroups labels, k ≤ g.length) :
    (stratified_kfold shuffle labels k seed).length = k ∧
    (∀ j, j < labels.length →
      (stratified_kfold shuffle labels k seed).countP
        (fun fd => decide (j ∈ fd.2)) = 1) ∧
    (∀ j, j < labels.length →
      (stratified_kfold shuffle labels k seed).countP
        (fun fd => decide (j ∈ fd.1)) = k - 1) ∧
    (∀ fd ∈ stratified_kfold shuffle labels k seed, ∀ j,
      j ∈ fd.1 ↔ (j < labels.length ∧ j ∉ fd.2)) := by
  have hk0 : 0 < k := by omega
  set chunked := (classGroups labels).map (fun g =>
    splitSizes (shuffle seed g) (foldSizes g.length k)) with hchunked
  have hkfold : stratified_kfold shuffle labels k seed =
      (List.range k).map (fun i =>
        ((chunked.map (fun cs => (cs.eraseIdx i).flatten)).flatten,
         (chunked.map (fun cs => cs.getD i [])).flatten)) := rfl
  have hlen_cs : ∀ cs ∈ chunked, cs.length = k := by
    intro cs hcs
    rw [hchunked] at hcs
    rcases List.mem_map.1 hcs with ⟨g, _, rfl⟩
    rw [splitSizes_length, foldSizes_length]
  have hSflat : ∀ j, (chunked.map (fun cs => cs.flatten.count j)).sum =
      if j < labels.length then 1 else 0 := by
    intro j
    rw [hchunked, List.map_map]
    calc ((classGroups labels).map ((fun cs => cs.flatten.count j) ∘ fun g =>
          splitSizes (shuffle seed g) (foldSizes g.length k))).sum
        = ((classGroups labels).map (List.count j)).sum := by
          apply congrArg
          apply List.map_congr_left
          intro g _
          simp only [Function.comp]
          rw [splitSizes_flatten _ _
            (by rw [foldSizes_sum _ _ hk0, (hperm seed g).length_eq])]
          exact (hperm seed g).count_eq j
      _ = if j < labels.length then 1 else 0 := classGroups_count labels j
  have hfold_count : ∀ i, i < k → ∀ j,
      (chunked.map (fun cs => ((cs.eraseIdx i).flatten).count j)).sum +
        (chunked.map (fun cs => (cs.getD i []).count j)).sum =
        if j < labels.length then 1 else 0 := by
    intro i hik j
    rw [← hSflat j, ← sum_map_add_nat]
    apply congrArg
    apply List.map_congr_left
    intro cs hcs
    exact count_flatten_eraseIdx cs i (by rw [hlen_cs cs hcs]; exact hik) j
  have hval_total : ∀ j, ((List.range k).map (fun i =>
      (chunked.map (fun cs => (cs.getD i []).count j)).sum)).sum =
      if j < labels.length then 1 else 0 := by
    intro j
    rw [list_sum_comm, ← hSflat j]
    apply congrArg
    apply List.map_congr_left
    intro cs hcs
    rw [← hlen_cs cs hcs, sum_range_getD]
    exact (List.count_flatten j cs).symm
  have hvc : ∀ i j, ((chunked.map (fun cs => cs.getD i [])).flatten).count j =
      (chunked.map (fun cs => (cs.getD i []).count j)).sum := by
    intro i j
    rw [List.count_flatten, List.map_map]
    rfl
  have htc : ∀ i j,
      ((chunked.map (fun cs => (cs.eraseIdx i).flatten)).flatten).count j =
      (chunked.map (fun cs => ((cs.eraseIdx i).flatten).count j)).sum := by
    intro i j
    rw [List.count_flatten, List.map_map]
    rfl
  have hfold_mem : ∀ i, i < k → ∀ j,
      (j ∈ (chunked.map (fun cs => (cs.eraseIdx i).flatten)).flatten ↔
        (j < labels.length ∧
          j ∉ (chunked.map (fun cs => cs.getD i [])).flatten)) := by
    intro i hik j
    have hc := hfold_count i hik j
    rw [← htc i j, ← hvc i j] at hc
    constructor
    · intro hmem
      have htr := List.count_pos_iff.2 hmem
      by_cases hj : j < labels.length
      · rw [if_pos hj] at hc
        refine ⟨hj, fun hv => ?_⟩
        have hvpos := List.count_pos_iff.2 hv
        omega
      · rw [if_neg hj] at hc
        omega
    · intro ⟨hj, hnv⟩
      rw [if_pos hj] at hc
      have hv0 : ((chunked.map (fun cs => cs.getD i [])).flatten).count j = 0 :=
        List.count_eq_zero.2 hnv
      exact List.count_pos_iff.1 (by omega)
  refine ⟨by rw [hkfold]; simp, ?_, ?_, ?_⟩
  · intro j hj
    rw [hkfold, List.countP_map]
    have hcong : (List.range k).countP
        ((fun fd : List Nat × List Nat => decide (j ∈ fd.2)) ∘ fun i =>
          ((chunked.map (fun cs => (cs.eraseIdx i).flatten)).flatten,
           (chunked.map (fun cs => cs.getD i [])).flatten)) =
        (List.range k).countP ((fun c => decide (0 < c)) ∘ fun i =>
          (chunked.map (fun cs => (cs.getD i []).count j)).sum) := by
      apply List.countP_congr
      intro i _
      simp only [Function.comp]
      rw [decide_eq_true_iff, decide_eq_true_iff, ← hvc i j]
      exact ⟨fun hm => List.count_pos_iff.2 hm,
        fun hp => List.count_pos_iff.1 hp⟩
    rw [hcong, ← List.countP_map]
    apply countP_pos_of_sum_one
    rw [hval_total j, if_pos hj]
  · intro j hj
    rw [hkfold, List.countP_map]
    have hcong : (List.range k).countP
        ((fun fd : List Nat × List Nat => decide (j ∈ fd.1)) ∘ fun i =>
          ((chunked.map (fun cs => (cs.eraseIdx i).flatten)).flatten,
           (chunked.map (fun cs => cs.getD i [])).flatten)) =
        (List.range k).countP ((fun c => decide (c = 0)) ∘ fun i =>
          (chunked.map (fun cs => (cs.getD i []).count j)).sum) := by
      apply List.countP_congr
      intro i hi
      have hik := List.mem_range.1 hi
      simp only [Function.comp]
      rw [decide_eq_true_iff, decide_eq_true_iff]
      rw [hfold_mem i hik j]
      constructor
      · intro ⟨_, hnv⟩
        rw [← hvc i j]
        exact List.count_eq_zero.2 hnv
      · intro h0
        refine ⟨hj, fun hv => ?_⟩
        have := List.count_pos_iff.2 hv
        rw [hvc i j] at this
        omega
    rw [hcong, ← List.countP_map]
    rw [countP_zero_eq_length_sub, countP_pos_of_sum_one _
      (by rw [hval_total j, if_pos hj])]
    simp
  · intro fd hfd j
    rw [hkfold] at hfd
    rcases List.mem_map.1 hfd with ⟨i, hi, rfl⟩
    exact hfold_mem i (List.mem_range.1 hi) j

/-- C3 witness: the spec's example scenario, ten records with class ratio
3/10 and test fraction 1/5, identity standing in for the shuffle. -/
theorem stratified_split_partition_witness :
    (stratified_split (fun _ l => l) [0, 0, 0, 0, 0, 0, 0, 1, 1, 1]
        (2/10) 0).1.Disjoint
      (stratified_split (fun _ l => l) [0, 0, 0, 0, 0, 0, 0, 1, 1, 1]
        (2/10) 0).2 ∧
    (∀ j, (j ∈ (stratified_split (fun _ l => l)
          [0, 0, 0, 0, 0, 0, 0, 1, 1, 1] (2/10) 0).1 ∨
        j ∈ (stratified_split (fun _ l => l)
          [0, 0, 0, 0, 0, 0, 0, 1, 1, 1] (2/10) 0).2) ↔
        j < ([0, 0, 0, 0, 0, 0, 0, 1, 1, 1] : List Nat).length) ∧
    |((stratified_split (fun _ l => l) [0, 0, 0, 0, 0, 0, 0, 1, 1, 1]
          (2/10) 0).2.length : ℤ) -
        round ((2/10 : ℚ) *
          (([0, 0, 0, 0, 0, 0, 0, 1, 1, 1] : List Nat).length : ℚ))| ≤
      ((classGroups ([0, 0, 0, 0, 0, 0, 0, 1, 1, 1] : List Nat)).length : ℤ) :=
  stratified_split_partition (fun _ l => l) [0, 0, 0, 0, 0, 0, 0, 1, 1, 1]
    (2/10) 0 (fun _ _ => List.Perm.refl _) (by simp) (by norm_num)
    (by norm_num)

/-- C4 witness: four records in two balanced classes, two folds. -/
theorem stratified_kfold_partition_witness :
    (stratified_kfold (fun _ l => l) [0, 0, 1, 1] 2 0).length = 2 ∧
    (∀ j, j < ([0, 0, 1, 1] : List Nat).length →
      (stratified_kfold (fun _ l => l) [0, 0, 1, 1] 2 0).countP
        (fun fd => decide (j ∈ fd.2)) = 1) ∧
    (∀ j, j < ([0, 0, 1, 1] : List Nat).length →
      (stratified_kfold (fun _ l => l) [0, 0, 1, 1] 2 0).countP
        (fun fd => decide (j ∈ fd.1)) = 2 - 1) ∧
    (∀ fd ∈ stratified_kfold (fun _ l => l) [0, 0, 1, 1] 2 0, ∀ j,
      j ∈ fd.1 ↔ (j < ([0, 0, 1, 1] : List Nat).length ∧ j ∉ fd.2)) :=
  stratified_kfold_partition (fun _ l => l) [0, 0, 1, 1] 2 0
    (fun _ _ => List.Perm.refl _) (by norm_num) (by decide)

end MLEval
